import Mathlib

/-!
# Verification of the qtnetstring codec (nmandery/qtnetstring)

Shallow embedding of `src/qtnetstring.cpp` (tagged-netstring codec for Qt):
`QTNetString::dump` (encoder) and `QTNetString::parse` / `parse_payload`
(decoder), together with the helper semantics of the Qt4 primitives the code
relies on (`QByteArray::indexOf`, `QByteArray::mid`, `QByteArray::toInt`,
`QByteArray::at`, `QMap` sorted insertion).

Buffers are lists of bytes (`List Nat`); C++ `int` positions and sizes are
embedded as `Int` (the values arising never overflow 32 bits, since
`QByteArray::toInt` itself rejects anything outside the `int` range).
The recursive parser is embedded with an explicit fuel parameter, since the
C++ `while` loops in `parse_list` / `parse_map` are not structurally
recursive (and the original code can even fail to terminate on adversarial
buffers with negative declared sizes); fuel exhaustion is mapped to `none`.
-/

namespace QTN

/-- ASCII space characters accepted by Qt's `qstrtoll` whitespace skipping
(`isspace` on the C locale): space, tab, LF, VT, FF, CR. -/
def isSpaceByte (c : Nat) : Bool :=
  c == 32 || c == 9 || c == 10 || c == 11 || c == 12 || c == 13

/-- ASCII decimal digit byte. -/
def isDigitByte (c : Nat) : Bool := 48 ≤ c && c ≤ 57

/-- Numeric value of a run of ASCII digit bytes, most significant first. -/
def digitsVal (l : List Nat) : Nat := l.foldl (fun a c => 10 * a + (c - 48)) 0

/-- Base-10 ASCII digits of a natural number (`QByteArray::number` for
non-negative input).  The fuel argument is only a termination device; the
first argument never needs more than `n+1` steps. -/
def natDigitsAux : Nat → Nat → List Nat
  | 0, _ => []
  | f + 1, n => if n < 10 then [48 + n] else natDigitsAux f (n / 10) ++ [48 + n % 10]

/-- Base-10 ASCII representation of a natural number. -/
def natDigits (n : Nat) : List Nat := natDigitsAux (n + 1) n

/-- Base-10 ASCII representation of an integer (`QByteArray::number(int)` /
the text form `QVariant::toByteArray` produces for integer variants). -/
def intToBytes (n : Int) : List Nat :=
  if n < 0 then 45 :: natDigits n.natAbs else natDigits n.toNat

/-- The bytes of `"true"`. -/
def trueBytes : List Nat := [116, 114, 117, 101]

/-- The bytes of `"false"`. -/
def falseBytes : List Nat := [102, 97, 108, 115, 101]

/-- Element of a list at a natural index, `0` when out of range. -/
def atNat : List Nat → Nat → Nat
  | [], _ => 0
  | c :: _, 0 => c
  | _ :: r, n + 1 => atNat r n

/-- `QByteArray::at` at an `Int` index.  In-range accesses read the byte;
out-of-range accesses are undefined behaviour in C++ and are modelled as the
byte `0`, which is not a valid type tag. -/
def atQ (l : List Nat) (i : Int) : Nat :=
  if 0 ≤ i ∧ i < l.length then atNat l i.toNat else 0

/-- Index of the first occurrence of `ch` in `l`, if any. -/
def idxFrom : List Nat → Nat → Option Nat
  | [], _ => none
  | c :: r, ch => if c = ch then some 0 else (idxFrom r ch).map (· + 1)

/-- `QByteArray::indexOf(char, int from)` (Qt 4): a negative `from` counts
from the end (clamped at 0); returns `-1` when the byte does not occur at or
after `from`. -/
def indexOfQ (l : List Nat) (ch : Nat) (f : Int) : Int :=
  let f2 : Int := if f < 0 then max (f + l.length) 0 else f
  match idxFrom (l.drop f2.toNat) ch with
  | none => -1
  | some i => f2 + i

/-- `QByteArray::mid(pos, len)` (Qt 4): `pos` past the end gives the empty
array; a negative `len` means "to the end"; a negative `pos` shortens the
requested length; the result is clipped to the array. -/
def midQ (l : List Nat) (pos len : Int) : List Nat :=
  if pos ≥ (l.length : Int) then []
  else
    let len1 : Int := if len < 0 then (l.length : Int) - pos else len
    let p2 : Int := if pos < 0 then 0 else pos
    let len2 : Int := if pos < 0 then len1 + pos else len1
    let len3 : Int := if len2 + p2 > (l.length : Int) then (l.length : Int) - p2 else len2
    (l.drop p2.toNat).take len3.toNat

/-- `QByteArray::toInt(&ok)` (Qt 4, base 10).  The byte array's data is
handed to `qstrtoll` as a C string, so it is truncated at the first embedded
`0` byte; leading C-locale whitespace is skipped, one optional `+`/`-` sign
is accepted, then one or more decimal digits which must extend to the end of
the (truncated) data; the value must fit a signed 32-bit `int`. -/
def toIntQ (l : List Nat) : Option Int :=
  let s := (l.takeWhile (fun c => c ≠ 0)).dropWhile isSpaceByte
  match s with
  | [] => none
  | c :: r =>
    let neg : Bool := c = 45
    let ds : List Nat := if c = 45 || c = 43 then r else c :: r
    if ds = [] then none
    else if !ds.all isDigitByte then none
    else
      let v : Int := if neg then -(digitsVal ds : Int) else (digitsVal ds : Int)
      if v < -2147483648 ∨ 2147483647 < v then none else some v

/-- `QByteArray::toDouble(&ok)` success, modelled at the level of the
accepted text shape (C-string truncation at the first `0` byte, leading
whitespace, optional sign, decimal digits with an optional fraction and
exponent, consuming the whole data).  The numeric double value itself is
never inspected by the claims, so the decoded float keeps its payload text
(IEEE arithmetic is out of scope of this embedding). -/
def toDoubleOkQ (l : List Nat) : Bool :=
  let s0 := (l.takeWhile (fun c => c ≠ 0)).dropWhile isSpaceByte
  let s1 := match s0 with
    | c :: r => if c = 43 || c = 45 then r else s0
    | [] => []
  let intp := s1.takeWhile isDigitByte
  let r1 := s1.dropWhile isDigitByte
  let fracAndRest : Nat × List Nat := match r1 with
    | 46 :: r => ((r.takeWhile isDigitByte).length, r.dropWhile isDigitByte)
    | _ => (0, r1)
  if intp.length + fracAndRest.1 = 0 then false
  else match fracAndRest.2 with
    | [] => true
    | e :: r2 =>
      if e = 101 || e = 69 then
        let r3 := match r2 with
          | c :: r => if c = 43 || c = 45 then r else r2
          | [] => []
        decide (0 < (r3.takeWhile isDigitByte).length) && r3.dropWhile isDigitByte = []
      else false

/-- The dynamic value model: the `QVariant` shapes the codec produces and
consumes.  `invalid` is the null/invalid `QVariant` (the decoded `Null`);
`vfloat` keeps the decimal text of the double (see `toDoubleOkQ`);
`vmap` is the entry list of a `QMap<QString, QVariant>`, which Qt keeps
sorted in ascending key order (keys as their Latin-1 byte sequences). -/
inductive Value where
  | invalid : Value
  | vbool : Bool → Value
  | vint : Int → Value
  | vfloat : List Nat → Value
  | vbytes : List Nat → Value
  | vlist : List Value → Value
  | vmap : List (List Nat × Value) → Value

/-- Whether a decoded value has the `QVariant::ByteArray` type — the check
`map_key.type() == QVariant::ByteArray` of `parse_map`. -/
def Value.isBytes : Value → Bool
  | .vbytes _ => true
  | _ => false

/-- `QMap` insertion (`map[key] = value`): the entry list is kept sorted in
ascending key order (`QString::operator<`, i.e. lexicographic order on the
character sequence); an existing key has its value replaced. -/
def qmapInsert : List (List Nat × Value) → List Nat → Value → List (List Nat × Value)
  | [], k, v => [(k, v)]
  | (k', v') :: rest, k, v =>
    if k < k' then (k, v) :: (k', v') :: rest
    else if k = k' then (k, v) :: rest
    else (k', v') :: qmapInsert rest k v

/-- A `QMap` built by inserting the pairs of a list in order into the empty
map (later occurrences of a key overwrite earlier ones). -/
def qmapOfList (l : List (List Nat × Value)) : List (List Nat × Value) :=
  l.foldl (fun m kv => qmapInsert m kv.1 kv.2) []

/-! ## Encoder: `QTNetString::dump` -/

/-- `SIZE ':' DATA TAG` frame assembly: the tail of `QTNetString::dump`
(`tns.append(QByteArray::number(tns_value.size())); append(':');
append(tns_value); append(tns_type)`). -/
def frameOf (pl : List Nat) (tag : Nat) : List Nat :=
  natDigits pl.length ++ [58] ++ pl ++ [tag]

mutual
/-- `QTNetString::dump`: encode one value as a complete frame.  On the closed
value model every branch of the C++ type switch succeeds (`dump_unknown`'s
failure arm is only reachable for host variant types outside this model), so
the embedding is total.  `invalid` encodes as `0:~`; bools as `true`/`false`
with tag `!`; integer variants as their decimal text with tag `#`; floats as
their text with tag `^`; strings/byte arrays verbatim with tag `,`; lists and
maps as the concatenation of their children's frames. -/
def dump : Value → List Nat
  | .invalid => frameOf [] 126
  | .vbool b => frameOf (if b then trueBytes else falseBytes) 33
  | .vint n => frameOf (intToBytes n) 35
  | .vfloat s => frameOf s 94
  | .vbytes s => frameOf s 44
  | .vlist xs => frameOf (dumpList xs) 93
  | .vmap m => frameOf (dumpMap m) 125

/-- `dump_list`: concatenate the frames of the elements in sequence order. -/
def dumpList : List Value → List Nat
  | [] => []
  | v :: vs => dump v ++ dumpList vs

/-- `dump_map`: for each entry in `QMap` iteration order (ascending keys),
the key's frame (encoded as a string) followed by the value's frame. -/
def dumpMap : List (List Nat × Value) → List Nat
  | [] => []
  | (k, v) :: rest => dump (.vbytes k) ++ dump v ++ dumpMap rest
end

/-! ## Decoder: `parse_payload`, `parse_list`, `parse_map`,
`QTNetString::parse` -/

mutual
/-- `parse_payload(payload, start_pos, end_pos, this_end_pos, ok)`: decode one
frame of `payload` between `start_pos` and the inclusive bound `end_pos`.
`some (v, e)` is the `ok` outcome with value `v` and `this_end_pos = e`
(one past the type-tag byte); `none` is `ok = false` (or fuel exhaustion). -/
def parse_payload : Nat → List Nat → Int → Int → Option (Value × Int)
  | 0, _, _, _ => none
  | fuel + 1, payload, start_pos, end_pos =>
    if payload.length = 0 then none
    else if start_pos > end_pos ∨ ((payload.length : Int) - 1) < end_pos then none
    else
      let colon_pos := indexOfQ payload 58 start_pos
      if colon_pos = -1 ∨ colon_pos > end_pos then none
      else
        match toIntQ (midQ payload start_pos (colon_pos - start_pos)) with
        | none => none
        | some pl_size =>
          let pl_start := colon_pos + 1
          let pl_end := pl_start + pl_size - 1
          if pl_end ≥ end_pos then none
          else
            let nxt := pl_start + pl_size + 1
            match atQ payload (pl_end + 1) with
            | 126 => some (.invalid, nxt)
            | 44 => some (.vbytes (midQ payload pl_start pl_size), nxt)
            | 33 => some (.vbool (midQ payload pl_start pl_size = trueBytes), nxt)
            | 35 =>
              match toIntQ (midQ payload pl_start pl_size) with
              | none => none
              | some n => some (.vint n, nxt)
            | 94 =>
              if toDoubleOkQ (midQ payload pl_start pl_size)
              then some (.vfloat (midQ payload pl_start pl_size), nxt)
              else none
            | 125 =>
              match parse_map fuel payload pl_start pl_size with
              | none => none
              | some m => some (.vmap m, nxt)
            | 93 =>
              match parse_list fuel payload pl_start pl_size with
              | none => none
              | some vs => some (.vlist vs, nxt)
            | _ => none

/-- `parse_list`: a zero `pl_size` yields the empty list, otherwise the
while loop `parse_list_loop` collects the sub-frames. -/
def parse_list : Nat → List Nat → Int → Int → Option (List Value)
  | 0, _, _, _ => none
  | fuel + 1, payload, pl_start, pl_size =>
    if pl_size = 0 then some []
    else
      match parse_list_loop fuel payload (pl_start + pl_size - 1) pl_start with
      | none => none
      | some (vs, _) => some vs

/-- The while loop of `parse_list`:
`while (ok && this_end_pos < pl_start+pl_size-1)` parse one sub-frame at the
running offset with bound `pl_size+pl_start-1` and append it.  The returned
`Int` is the final value of the local `this_end_pos`. -/
def parse_list_loop : Nat → List Nat → Int → Int → Option (List Value × Int)
  | 0, _, _, _ => none
  | fuel + 1, payload, bound, pos =>
    if pos < bound then
      match parse_payload fuel payload pos bound with
      | none => none
      | some (v, e) =>
        match parse_list_loop fuel payload bound e with
        | none => none
        | some (vs, fin) => some (v :: vs, fin)
    else some ([], pos)

/-- `parse_map`: a zero `pl_size` yields the empty map, otherwise the while
loop `parse_map_loop` collects key/value pairs. -/
def parse_map : Nat → List Nat → Int → Int → Option (List (List Nat × Value))
  | 0, _, _, _ => none
  | fuel + 1, payload, pl_start, pl_size =>
    if pl_size = 0 then some []
    else
      match parse_map_loop fuel payload (pl_start + pl_size - 1) pl_start [] with
      | none => none
      | some (m, _) => some m

/-- The while loop of `parse_map`: parse a key sub-frame, require it to be of
`QVariant::ByteArray` type, parse a value sub-frame, insert the pair into the
accumulated `QMap`.  The returned `Int` is the final `this_end_pos`. -/
def parse_map_loop : Nat → List Nat → Int → Int → List (List Nat × Value) →
    Option (List (List Nat × Value) × Int)
  | 0, _, _, _, _ => none
  | fuel + 1, payload, bound, pos, m =>
    if pos < bound then
      match parse_payload fuel payload pos bound with
      | none => none
      | some (k, e) =>
        match k with
        | .vbytes kb =>
          match parse_payload fuel payload e bound with
          | none => none
          | some (v, e2) => parse_map_loop fuel payload bound e2 (qmapInsert m kb v)
        | _ => none
    else some (m, pos)
end

/-- `QTNetString::parse(tnetstring, ok)`: decode one frame starting at offset
0 against the bound `tnetstring.size() - 1`; an empty input fails; on error
the variant is cleared, modelled by `none`.  The fuel `2 * length + 2` is
ample for every terminating run on well-formed data: decoding a frame of `b`
bytes makes at most `2 * b - 2` nested fuel-consuming entries. -/
def parse (tnetstring : List Nat) : Option Value :=
  if tnetstring.length ≠ 0 then
    (parse_payload (2 * tnetstring.length + 2) tnetstring 0 ((tnetstring.length : Int) - 1)).map
      (fun r => r.1)
  else none

/-! ## Basic facts about the Qt primitive models -/

theorem drop_atNat : ∀ (l : List Nat) (n : Nat), n < l.length →
    l.drop n = atNat l n :: l.drop (n + 1)
  | c :: r, 0, _ => rfl
  | c :: r, n + 1, h => by
    simpa [atNat, List.drop] using drop_atNat r n (by simpa using Nat.lt_of_succ_lt_succ h)

theorem atNat_append : ∀ (l l2 : List Nat) (n : Nat), n < l.length →
    atNat (l ++ l2) n = atNat l n
  | c :: r, l2, 0, _ => rfl
  | c :: r, l2, n + 1, h => by
    simpa [atNat] using atNat_append r l2 n (by simpa using Nat.lt_of_succ_lt_succ h)

theorem atQ_nat (l : List Nat) (n : Nat) (h : n < l.length) : atQ l (n : Int) = atNat l n := by
  simp [atQ, h]

theorem atQ_append (l l2 : List Nat) (i : Int) (h0 : 0 ≤ i) (h1 : i < (l.length : Int)) :
    atQ (l ++ l2) i = atQ l i := by
  have hlt : i < ((l ++ l2).length : Int) := by
    simp only [List.length_append]
    omega
  have hn : i.toNat < l.length := by omega
  simp only [atQ, h0, hlt, h1, true_and, if_pos]
  exact atNat_append l l2 i.toNat hn

theorem idxFrom_none (ch : Nat) : ∀ l : List Nat, (∀ c ∈ l, c ≠ ch) → idxFrom l ch = none
  | [], _ => rfl
  | c :: r, h => by
    have hc : c ≠ ch := h c (by simp)
    simp [idxFrom, hc, idxFrom_none ch r (fun x hx => h x (by simp [hx]))]

theorem idxFrom_pre (ch : Nat) : ∀ (pre rest : List Nat), (∀ c ∈ pre, c ≠ ch) →
    idxFrom (pre ++ ch :: rest) ch = some pre.length
  | [], rest, _ => by simp [idxFrom]
  | c :: pre, rest, h => by
    have hc : c ≠ ch := h c (by simp)
    simp [idxFrom, hc, idxFrom_pre ch pre rest (fun x hx => h x (by simp [hx]))]

theorem takeWhile_all {p : Nat → Bool} : ∀ l : List Nat, (∀ c ∈ l, p c) → l.takeWhile p = l
  | [], _ => rfl
  | c :: r, h => by
    have hc : p c := h c (by simp)
    simp [List.takeWhile, hc, takeWhile_all r (fun x hx => h x (by simp [hx]))]

theorem dropWhile_eq_drop {p : Nat → Bool} : ∀ l : List Nat,
    l.dropWhile p = l.drop (l.takeWhile p).length
  | [] => rfl
  | c :: r => by
    by_cases hc : p c
    · simp [List.dropWhile, List.takeWhile, hc, dropWhile_eq_drop r]
    · simp [List.dropWhile, List.takeWhile, hc]

theorem takeWhile_append_stop {p : Nat → Bool} : ∀ (l l2 : List Nat),
    (l.takeWhile p).length < l.length → (l ++ l2).takeWhile p = l.takeWhile p
  | [], l2, h => by simp at h
  | c :: r, l2, h => by
    by_cases hc : p c
    · have hr : (r.takeWhile p).length < r.length := by
        simp [List.takeWhile, hc] at h
        omega
      simp [List.takeWhile, hc, takeWhile_append_stop r l2 hr]
    · simp [List.takeWhile, hc]

theorem takeWhile_sat {p : Nat → Bool} : ∀ (l : List Nat) (c : Nat), c ∈ l.takeWhile p → p c
  | [], c, h => by simp [List.takeWhile] at h
  | a :: r, c, h => by
    by_cases ha : p a
    · simp only [List.takeWhile, ha, List.mem_cons] at h
      rcases h with h | h
      · exact h ▸ ha
      · exact takeWhile_sat r c h
    · simp [List.takeWhile, ha] at h

theorem midQ_nonneg (l : List Nat) (pos len : Int) (h0 : 0 ≤ pos) (h1 : 0 ≤ len)
    (h2 : pos + len ≤ (l.length : Int)) :
    midQ l pos len = (l.drop pos.toNat).take len.toNat := by
  unfold midQ
  by_cases hp : pos ≥ (l.length : Int)
  · have hpos : pos = (l.length : Int) := by omega
    have hlen : len = 0 := by omega
    simp [hp, hpos, hlen]
  · have hnl : ¬ len < 0 := by omega
    have hnp : ¬ pos < 0 := by omega
    have hno : ¬ (len + pos > (l.length : Int)) := by omega
    simp only [hp, if_false, hnl, if_false, hnp, if_false, hno, if_false]

theorem drop_take_append (l l2 : List Nat) (p n : Nat) (h : p + n ≤ l.length) :
    ((l ++ l2).drop p).take n = (l.drop p).take n := by
  have hp : p ≤ l.length := by omega
  rw [List.drop_append_of_le_length hp]
  have hn : n ≤ (l.drop p).length := by
    simp [List.length_drop]
    omega
  rw [List.take_append_of_le_length hn]

theorem midQ_append (l l2 : List Nat) (pos len : Int) (h0 : 0 ≤ pos) (h1 : 0 ≤ len)
    (h2 : pos + len ≤ (l.length : Int)) :
    midQ (l ++ l2) pos len = midQ l pos len := by
  have h2' : pos + len ≤ ((l ++ l2).length : Int) := by
    simp only [List.length_append]
    omega
  rw [midQ_nonneg l pos len h0 h1 h2, midQ_nonneg (l ++ l2) pos len h0 h1 h2']
  exact drop_take_append l l2 pos.toNat len.toNat (by omega)

theorem digitsFold_lt : ∀ (l : List Nat) (a : Nat), (∀ c ∈ l, isDigitByte c) →
    l.foldl (fun a c => 10 * a + (c - 48)) a < (a + 1) * 10 ^ l.length
  | [], a, _ => by simp
  | c :: r, a, h => by
    have hc : isDigitByte c := h c (by simp)
    have hc' : c - 48 ≤ 9 := by
      simp [isDigitByte] at hc
      omega
    have ih := digitsFold_lt r (10 * a + (c - 48)) (fun x hx => h x (by simp [hx]))
    simp only [List.foldl_cons, List.length_cons]
    calc r.foldl (fun a c => 10 * a + (c - 48)) (10 * a + (c - 48))
        < (10 * a + (c - 48) + 1) * 10 ^ r.length := ih
      _ ≤ ((a + 1) * 10) * 10 ^ r.length := by nlinarith
      _ = (a + 1) * 10 ^ (r.length + 1) := by ring

theorem digitsVal_lt (l : List Nat) (h : ∀ c ∈ l, isDigitByte c) :
    digitsVal l < 10 ^ l.length := by
  simpa [digitsVal] using digitsFold_lt l 0 h

theorem toIntQ_digits (l : List Nat) (hne : l ≠ []) (hd : ∀ c ∈ l, isDigitByte c)
    (hlen : l.length ≤ 9) : toIntQ l = some (digitsVal l) := by
  obtain ⟨c, r, rfl⟩ : ∃ c r, l = c :: r := by
    cases l with
    | nil => exact absurd rfl hne
    | cons c r => exact ⟨c, r, rfl⟩
  have hc : isDigitByte c := hd c (by simp)
  have hc' : 48 ≤ c ∧ c ≤ 57 := by
    simp [isDigitByte] at hc
    omega
  have hnz : ∀ x ∈ c :: r, x ≠ 0 := by
    intro x hx
    have := hd x hx
    simp [isDigitByte] at this
    omega
  have h1 : (c :: r).takeWhile (fun x => decide (x ≠ 0)) = c :: r :=
    takeWhile_all _ (fun x hx => by simpa using hnz x hx)
  have hcs : isSpaceByte c = false := by
    simp [isSpaceByte]
    omega
  have h2 : (c :: r).dropWhile isSpaceByte = c :: r := by
    simp [List.dropWhile, hcs]
  have hc45 : c ≠ 45 := by omega
  have hc43 : c ≠ 43 := by omega
  have hval : digitsVal (c :: r) < 10 ^ 9 := by
    calc digitsVal (c :: r) < 10 ^ (c :: r).length := digitsVal_lt _ hd
      _ ≤ 10 ^ 9 := Nat.pow_le_pow_right (by norm_num) hlen
  have hall : (c :: r).all isDigitByte = true := by
    simp only [List.all_eq_true]
    exact hd
  have e45 : decide (c = 45) = false := by simp [hc45]
  have e43 : decide (c = 43) = false := by simp [hc43]
  have hrange : ¬((digitsVal (c :: r) : Int) < -2147483648 ∨ 2147483647 < (digitsVal (c :: r) : Int)) := by
    omega
  unfold toIntQ
  simp only [h1, h2, e45, e43, Bool.or_self, Bool.false_or, Bool.or_false, if_false,
    Bool.false_eq_true, reduceCtorEq, hall, Bool.not_true, hrange]
  simp


/-! ## Reduction and inversion lemmas for the decoder -/

/-- The valid type-tag bytes of the wire format. -/
def isTagByte (c : Nat) : Bool :=
  c == 33 || c == 35 || c == 44 || c == 93 || c == 94 || c == 125 || c == 126

theorem isTagByte_cases (c : Nat) (h : isTagByte c = true) :
    c = 33 ∨ c = 35 ∨ c = 44 ∨ c = 93 ∨ c = 94 ∨ c = 125 ∨ c = 126 := by
  simp [isTagByte] at h
  tauto

theorem parse_payload_start_gt (f : Nat) (p : List Nat) (s e : Int) (h : s > e) :
    parse_payload f p s e = none := by
  cases f with
  | zero => rfl
  | succ f =>
    by_cases hp : p.length = 0
    · simp [parse_payload, hp]
    · simp [parse_payload, hp, h]

theorem parse_payload_reduce (f : Nat) (p : List Nat) (s e c sz : Int)
    (hlen : ¬ p.length = 0)
    (hse : ¬(s > e ∨ (p.length : Int) - 1 < e))
    (hc : indexOfQ p 58 s = c)
    (hcv : ¬(c = -1 ∨ c > e))
    (hsz : toIntQ (midQ p s (c - s)) = some sz)
    (hpe : ¬(c + 1 + sz - 1 ≥ e)) :
    parse_payload (f + 1) p s e = (match atQ p (c + 1 + sz - 1 + 1) with
      | 126 => some (Value.invalid, c + 1 + sz + 1)
      | 44 => some (.vbytes (midQ p (c + 1) sz), c + 1 + sz + 1)
      | 33 => some (.vbool (midQ p (c + 1) sz = trueBytes), c + 1 + sz + 1)
      | 35 => (match toIntQ (midQ p (c + 1) sz) with
               | none => none
               | some n => some (.vint n, c + 1 + sz + 1))
      | 94 => (if toDoubleOkQ (midQ p (c + 1) sz)
               then some (.vfloat (midQ p (c + 1) sz), c + 1 + sz + 1) else none)
      | 125 => (match parse_map f p (c + 1) sz with
                | none => none
                | some m => some (.vmap m, c + 1 + sz + 1))
      | 93 => (match parse_list f p (c + 1) sz with
               | none => none
               | some vs => some (.vlist vs, c + 1 + sz + 1))
      | _ => none) := by
  simp only [parse_payload, hc, hsz, if_neg hlen, if_neg hse, if_neg hcv, if_neg hpe]

theorem parse_list_loop_exit (f : Nat) (p : List Nat) (bound pos : Int) (h : ¬ pos < bound) :
    parse_list_loop (f + 1) p bound pos = some ([], pos) := by
  simp [parse_list_loop, h]

theorem parse_list_loop_step (f : Nat) (p : List Nat) (bound pos : Int) (h : pos < bound) :
    parse_list_loop (f + 1) p bound pos =
      (match parse_payload f p pos bound with
       | none => none
       | some (v, e) =>
         (match parse_list_loop f p bound e with
          | none => none
          | some (vs, fin) => some (v :: vs, fin))) := by
  simp only [parse_list_loop, if_pos h]

theorem parse_map_loop_exit (f : Nat) (p : List Nat) (bound pos : Int)
    (m : List (List Nat × Value)) (h : ¬ pos < bound) :
    parse_map_loop (f + 1) p bound pos m = some (m, pos) := by
  simp [parse_map_loop, h]

theorem parse_map_loop_step (f : Nat) (p : List Nat) (bound pos : Int)
    (m : List (List Nat × Value)) (h : pos < bound) :
    parse_map_loop (f + 1) p bound pos m =
      (match parse_payload f p pos bound with
       | none => none
       | some (k, e) =>
         (match k with
          | .vbytes kb =>
            (match parse_payload f p e bound with
             | none => none
             | some (v, e2) => parse_map_loop f p bound e2 (qmapInsert m kb v))
          | _ => none)) := by
  simp only [parse_map_loop, if_pos h]

/-- On success, `parse_payload` has located a colon, parsed a size, and its
returned `this_end_pos` is `colon_pos + pl_size + 2`, one past the type-tag
byte at `colon_pos + pl_size + 1`. -/
theorem parse_payload_some_header (f : Nat) (p : List Nat) (s e : Int) (v : Value) (nxt : Int)
    (h : parse_payload (f + 1) p s e = some (v, nxt)) :
    ∃ sz : Int, toIntQ (midQ p s (indexOfQ p 58 s - s)) = some sz ∧
      ¬(indexOfQ p 58 s = -1 ∨ indexOfQ p 58 s > e) ∧
      indexOfQ p 58 s + sz < e ∧
      nxt = indexOfQ p 58 s + sz + 2 := by
  simp only [parse_payload] at h
  split at h
  · simp at h
  split at h
  · simp at h
  split at h
  · simp at h
  next hcv =>
  rcases hsz : toIntQ (midQ p s (indexOfQ p 58 s - s)) with _ | sz
  · rw [hsz] at h
    simp at h
  rw [hsz] at h
  simp only [] at h
  split at h
  · simp at h
  next hpe =>
  refine ⟨sz, rfl, hcv, by omega, ?_⟩
  split at h
  · simp at h; omega
  · simp at h; omega
  · simp at h; omega
  · split at h
    · simp at h
    · simp at h; omega
  · split at h
    · simp at h; omega
    · simp at h
  · split at h
    · simp at h
    · simp at h; omega
  · split at h
    · simp at h
    · simp at h; omega
  · simp at h

/-- On success the returned `this_end_pos` never exceeds `end_pos + 1`:
the type-tag byte sits at or before the bound. -/
theorem parse_payload_end_le (f : Nat) (p : List Nat) (s e : Int) (v : Value) (nxt : Int)
    (h : parse_payload f p s e = some (v, nxt)) : nxt ≤ e + 1 := by
  cases f with
  | zero => simp [parse_payload] at h
  | succ f =>
    obtain ⟨sz, _, _, hlt, hnxt⟩ := parse_payload_some_header f p s e v nxt h
    omega

/-- Fuel monotonicity: a successful run stays successful with one more unit
of fuel, for all five mutually recursive decoding functions. -/
theorem parse_mono_step : ∀ f : Nat,
    (∀ p s e r, parse_payload f p s e = some r → parse_payload (f + 1) p s e = some r) ∧
    (∀ p a b r, parse_list f p a b = some r → parse_list (f + 1) p a b = some r) ∧
    (∀ p b pos r, parse_list_loop f p b pos = some r → parse_list_loop (f + 1) p b pos = some r) ∧
    (∀ p a b r, parse_map f p a b = some r → parse_map (f + 1) p a b = some r) ∧
    (∀ p b pos m r, parse_map_loop f p b pos m = some r → parse_map_loop (f + 1) p b pos m = some r) := by
  intro f
  induction f with
  | zero =>
    refine ⟨?_, ?_, ?_, ?_, ?_⟩
    · intro p s e r h
      simp [parse_payload] at h
    · intro p a b r h
      simp [parse_list] at h
    · intro p b pos r h
      simp [parse_list_loop] at h
    · intro p a b r h
      simp [parse_map] at h
    · intro p b pos m r h
      simp [parse_map_loop] at h
  | succ f ih =>
    obtain ⟨ihp, ihl, ihll, ihm, ihml⟩ := ih
    refine ⟨?_, ?_, ?_, ?_, ?_⟩
    · intro p s e r h
      simp only [parse_payload] at h ⊢
      split at h
      · simp at h
      next h1 =>
      rw [if_neg h1]
      split at h
      · simp at h
      next h2 =>
      rw [if_neg h2]
      split at h
      · simp at h
      next h3 =>
      rw [if_neg h3]
      rcases hsz : toIntQ (midQ p s (indexOfQ p 58 s - s)) with _ | sz
      · rw [hsz] at h
        simp at h
      rw [hsz] at h
      simp only [] at h ⊢
      split at h
      · simp at h
      next h4 =>
      rw [if_neg h4]
      split at h
      · exact h
      · exact h
      · exact h
      · exact h
      · exact h
      · rcases hm : parse_map f p (indexOfQ p 58 s + 1) sz with _ | m
        · rw [hm] at h
          simp at h
        · rw [hm] at h
          rw [ihm _ _ _ _ hm]
          exact h
      · rcases hl : parse_list f p (indexOfQ p 58 s + 1) sz with _ | vs
        · rw [hl] at h
          simp at h
        · rw [hl] at h
          rw [ihl _ _ _ _ hl]
          exact h
      · exact h
    · intro p a b r h
      simp only [parse_list] at h ⊢
      split at h
      next h0 =>
        rw [if_pos h0]
        exact h
      next h0 =>
      rw [if_neg h0]
      rcases hll : parse_list_loop f p (a + b - 1) a with _ | vsf
      · rw [hll] at h
        simp at h
      rw [hll] at h
      rw [ihll _ _ _ _ hll]
      obtain ⟨vs, fin⟩ := vsf
      simp only [] at h ⊢
      exact h
    · intro p b pos r h
      by_cases hb : pos < b
      · rw [parse_list_loop_step f p b pos hb] at h
        rw [parse_list_loop_step (f + 1) p b pos hb]
        rcases hp : parse_payload f p pos b with _ | ve
        · rw [hp] at h
          simp at h
        rw [hp] at h
        rw [ihp _ _ _ _ hp]
        obtain ⟨v, e⟩ := ve
        simp only [] at h ⊢
        rcases hll : parse_list_loop f p b e with _ | vf
        · rw [hll] at h
          simp at h
        rw [hll] at h
        rw [ihll _ _ _ _ hll]
        obtain ⟨vs, fin⟩ := vf
        simp only [] at h ⊢
        exact h
      · rw [parse_list_loop_exit f p b pos hb] at h
        rw [parse_list_loop_exit (f + 1) p b pos hb]
        exact h
    · intro p a b r h
      simp only [parse_map] at h ⊢
      split at h
      next h0 =>
        rw [if_pos h0]
        exact h
      next h0 =>
      rw [if_neg h0]
      rcases hml : parse_map_loop f p (a + b - 1) a [] with _ | mf
      · rw [hml] at h
        simp at h
      rw [hml] at h
      rw [ihml _ _ _ _ _ hml]
      obtain ⟨m, fin⟩ := mf
      simp only [] at h ⊢
      exact h
    · intro p b pos m r h
      by_cases hb : pos < b
      · rw [parse_map_loop_step f p b pos m hb] at h
        rw [parse_map_loop_step (f + 1) p b pos m hb]
        rcases hp : parse_payload f p pos b with _ | ke
        · rw [hp] at h
          simp at h
        rw [hp] at h
        rw [ihp _ _ _ _ hp]
        obtain ⟨k, e⟩ := ke
        simp only [] at h ⊢
        cases k with
        | vbytes kb =>
          rcases hp2 : parse_payload f p e b with _ | ve2
          · rw [hp2] at h
            simp at h
          rw [hp2] at h
          rw [ihp _ _ _ _ hp2]
          obtain ⟨v, e2⟩ := ve2
          simp only [] at h ⊢
          exact ihml _ _ _ _ _ h
        | invalid => simp at h
        | vbool x => simp at h
        | vint x => simp at h
        | vfloat x => simp at h
        | vlist x => simp at h
        | vmap x => simp at h
      · rw [parse_map_loop_exit f p b pos m hb] at h
        rw [parse_map_loop_exit (f + 1) p b pos m hb]
        exact h

theorem parse_payload_mono (f f' : Nat) (hf : f ≤ f') (p : List Nat) (s e : Int)
    (r : Value × Int) (h : parse_payload f p s e = some r) : parse_payload f' p s e = some r := by
  induction f' with
  | zero =>
    have hf0 : f = 0 := by omega
    subst hf0
    exact h
  | succ f' ih =>
    rcases Nat.lt_or_ge f (f' + 1) with hlt | hge
    · exact (parse_mono_step f').1 _ _ _ _ (ih (by omega))
    · have hfe : f = f' + 1 := by omega
      subst hfe
      exact h

/-! ## Loop exit characterization (for the composite-payload claims) -/

theorem parse_list_loop_some_exit (f : Nat) (p : List Nat) (bound pos : Int)
    (vs : List Value) (fin : Int) (h : parse_list_loop f p bound pos = some (vs, fin))
    (hge : ¬ pos < bound) : vs = [] ∧ fin = pos := by
  cases f with
  | zero => simp [parse_list_loop] at h
  | succ f =>
    rw [parse_list_loop_exit f p bound pos hge] at h
    simp at h
    exact ⟨h.1, h.2.symm⟩

theorem parse_map_loop_some_exit (f : Nat) (p : List Nat) (bound pos : Int)
    (m mr : List (List Nat × Value)) (fin : Int)
    (h : parse_map_loop f p bound pos m = some (mr, fin))
    (hge : ¬ pos < bound) : mr = m ∧ fin = pos := by
  cases f with
  | zero => simp [parse_map_loop] at h
  | succ f =>
    rw [parse_map_loop_exit f p bound pos m hge] at h
    simp at h
    exact ⟨h.1.symm, h.2.symm⟩

/-- When entered (`pos < bound`), a successful composite-payload loop leaves
its final offset in `{bound, bound + 1}`: the loop condition is
`this_end_pos < pl_start + pl_size - 1` while each sub-frame ends at most one
byte past the bound it was given. -/
theorem loop_final_bounds : ∀ f : Nat,
    (∀ p bound pos vs fin, parse_list_loop f p bound pos = some (vs, fin) → pos < bound →
      bound ≤ fin ∧ fin ≤ bound + 1) ∧
    (∀ p bound pos m mr fin, parse_map_loop f p bound pos m = some (mr, fin) → pos < bound →
      bound ≤ fin ∧ fin ≤ bound + 1) := by
  intro f
  induction f with
  | zero =>
    constructor
    · intro p bound pos vs fin h _
      simp [parse_list_loop] at h
    · intro p bound pos m mr fin h _
      simp [parse_map_loop] at h
  | succ f ih =>
    obtain ⟨ihl, ihm⟩ := ih
    constructor
    · intro p bound pos vs fin h hpos
      rw [parse_list_loop_step f p bound pos hpos] at h
      rcases hp : parse_payload f p pos bound with _ | ve
      · rw [hp] at h
        simp at h
      rw [hp] at h
      obtain ⟨v, e⟩ := ve
      have he : e ≤ bound + 1 := parse_payload_end_le f p pos bound v e hp
      simp only [] at h
      rcases hll : parse_list_loop f p bound e with _ | vf
      · rw [hll] at h
        simp at h
      rw [hll] at h
      obtain ⟨vs2, fin2⟩ := vf
      simp only [Option.some.injEq] at h
      have hfin : fin = fin2 := by
        have := congrArg Prod.snd h.symm
        simpa using this
      subst hfin
      by_cases he2 : e < bound
      · exact ihl p bound e vs2 fin hll he2
      · obtain ⟨_, hfe⟩ := parse_list_loop_some_exit f p bound e vs2 fin hll he2
        omega
    · intro p bound pos m mr fin h hpos
      rw [parse_map_loop_step f p bound pos m hpos] at h
      rcases hp : parse_payload f p pos bound with _ | ke
      · rw [hp] at h
        simp at h
      rw [hp] at h
      obtain ⟨k, e⟩ := ke
      simp only [] at h
      cases k with
      | vbytes kb =>
        rcases hp2 : parse_payload f p e bound with _ | ve2
        · rw [hp2] at h
          simp at h
        rw [hp2] at h
        obtain ⟨v, e2⟩ := ve2
        have he2 : e2 ≤ bound + 1 := parse_payload_end_le f p e bound v e2 hp2
        simp only [] at h
        by_cases hlt : e2 < bound
        · exact ihm p bound e2 _ mr fin h hlt
        · obtain ⟨_, hfe⟩ := parse_map_loop_some_exit f p bound e2 _ mr fin h hlt
          omega
      | invalid => simp at h
      | vbool x => simp at h
      | vint x => simp at h
      | vfloat x => simp at h
      | vlist x => simp at h
      | vmap x => simp at h

/-! ## Claim theorems -/

/-- C1 (code bug evidence): the float-free representable value
`Int 2147483648` (a 64-bit `QVariant::LongLong`, just beyond the 32-bit
range) encodes to the frame `"10:2147483648#"`, but decoding that encoding
fails instead of returning the value: `parse_int` funnels the payload
through 32-bit `QByteArray::toInt` (the code's own TODO notes the missing
width handling), so `decode_one(encode(v)) == v` does not hold for every
representable float-free `v`. -/
theorem claim_c1_roundtrip_fails_for_int64 :
    dump (.vint 2147483648) = [49, 48, 58, 50, 49, 52, 55, 52, 56, 51, 54, 52, 56, 35] ∧
    parse (dump (.vint 2147483648)) = none := by
  constructor
  · simp only [dump]
    rfl
  · simp only [dump]
    rfl

/-- C2 (code bug evidence): the buffer `"+2:ab,"` decodes successfully to
`Bytes "ab"` although its size prefix `"+2"` is not a run of ASCII decimal
digits — `QByteArray::toInt` accepts an optional sign (and leading
whitespace, and any value up to `INT_MAX`), contradicting the claim (and the
grammar comment `SIZE = [0-9]{1,9}` in the source) that any non-digit-run
prefix makes decoding fail. -/
theorem claim_c2_signed_size_prefix_accepted :
    parse [43, 50, 58, 97, 98, 44] = some (.vbytes [97, 98]) := rfl

/-- C3 counterexample: the frame `"1:x~"` has tag `~` (Null) and declared
size 1 ≠ 0, yet decoding succeeds (returning the null variant) instead of
being a hard error: the `pl_size != 0` case in `parse_payload`'s `TNS_NULL`
branch only logs a complaint and does not clear `ok`. -/
theorem claim_c3_counterexample :
    parse [49, 58, 120, 126] = some .invalid := rfl

/-- C3 amended: for every frame whose type tag is `~` and whose declared
size is non-zero, decoding nevertheless succeeds and yields the null value
(with `this_end_pos` one past the tag byte); the size violation is only
logged. -/
theorem claim_c3_nonzero_null_lenient (f : Nat) (p : List Nat) (s e c sz : Int)
    (hlen : ¬ p.length = 0)
    (hse : ¬(s > e ∨ (p.length : Int) - 1 < e))
    (hc : indexOfQ p 58 s = c)
    (hcv : ¬(c = -1 ∨ c > e))
    (hsz : toIntQ (midQ p s (c - s)) = some sz)
    (hpe : ¬(c + 1 + sz - 1 ≥ e))
    (_hnz : sz ≠ 0)
    (htag : atQ p (c + 1 + sz - 1 + 1) = 126) :
    parse_payload (f + 1) p s e = some (.invalid, c + 1 + sz + 1) := by
  rw [parse_payload_reduce f p s e c sz hlen hse hc hcv hsz hpe, htag]

theorem claim_c3_nonzero_null_lenient_witness :
    parse_payload 1 [49, 58, 120, 126] 0 3 = some (.invalid, 4) :=
  claim_c3_nonzero_null_lenient 0 [49, 58, 120, 126] 0 3 1 1 (by decide) (by decide)
    (by decide) (by decide) (by decide) (by decide) (by decide) (by decide)

/-- C4 counterexample: the List frame `"4:0:~X]"` decodes successfully to
`[Null]` even though the payload byte `X` at the end of the payload window
is never consumed by any sub-frame: the loop in `parse_list` stops as soon
as the running offset reaches `pl_start + pl_size - 1`, so a single
leftover payload byte is silently ignored rather than causing a failure. -/
theorem claim_c4_counterexample :
    parse [52, 58, 48, 58, 126, 88, 93] = some (.vlist [.invalid]) := rfl

/-- C4 amended: the List/Map loops repeatedly decode sub-frames, each
beginning where the previous one ended, but stop as soon as the running
offset reaches `pl_start + pl_size - 1` (not `pl_start + pl_size`): on a
successful decode that entered the loop, the final offset is either
`pl_start + pl_size - 1` (exactly one payload byte silently ignored) or
`pl_start + pl_size` (payload fully consumed); leftovers of two or more
bytes that do not form a complete sub-frame still fail.  Here `bound`
stands for `pl_start + pl_size - 1`. -/
theorem claim_c4_loop_stop_bounds (fL fM : Nat) (pL pM : List Nat)
    (boundL posL boundM posM : Int) (vs : List Value) (finL : Int)
    (m0 mr : List (List Nat × Value)) (finM : Int)
    (hL : parse_list_loop fL pL boundL posL = some (vs, finL))
    (hposL : posL < boundL)
    (hM : parse_map_loop fM pM boundM posM m0 = some (mr, finM))
    (hposM : posM < boundM) :
    (boundL ≤ finL ∧ finL ≤ boundL + 1) ∧ (boundM ≤ finM ∧ finM ≤ boundM + 1) :=
  ⟨(loop_final_bounds fL).1 pL boundL posL vs finL hL hposL,
   (loop_final_bounds fM).2 pM boundM posM m0 mr finM hM hposM⟩

theorem claim_c4_loop_stop_bounds_witness :
    ((3 : Int) ≤ 3 ∧ (3 : Int) ≤ 3 + 1) ∧ ((7 : Int) ≤ 7 ∧ (7 : Int) ≤ 7 + 1) :=
  claim_c4_loop_stop_bounds 2 3 [48, 58, 126, 88] [49, 58, 107, 44, 48, 58, 126, 90]
    3 0 7 0 [.invalid] 3 [] [([107], .invalid)] 7 rfl (by decide) rfl (by decide)

/-- C5 (code bug evidence): the frame `"10:2147483648#"` carries the
base-10 text of the signed 64-bit integer 2147483648, but decoding fails
(`parse_int` uses `QByteArray::toInt`, which rejects values outside the
32-bit `int` range; the source's own TODO comment flags the missing
width cast), contradicting the claim that any signed 64-bit payload
decodes to its value. -/
theorem claim_c5_int64_payload_rejected :
    parse [49, 48, 58, 50, 49, 52, 55, 52, 56, 51, 54, 52, 56, 35] = none := rfl

/-- C7: when the sizes and positions checks pass but the payload window's
last index `pl_end = colon_pos + pl_size` is at or beyond the end bound,
there is no room for a trailing type tag and decoding fails
(`"tns specifies no type"` — the `TruncatedFrame` condition). -/
theorem claim_c7_truncated_frame (f : Nat) (p : List Nat) (s e c sz : Int)
    (hlen : ¬ p.length = 0)
    (hse : ¬(s > e ∨ (p.length : Int) - 1 < e))
    (hc : indexOfQ p 58 s = c)
    (hcv : ¬(c = -1 ∨ c > e))
    (hsz : toIntQ (midQ p s (c - s)) = some sz)
    (hpe : c + 1 + sz - 1 ≥ e) :
    parse_payload (f + 1) p s e = none := by
  simp only [parse_payload, hc, hsz, if_neg hlen, if_neg hse, if_neg hcv, if_pos hpe]

theorem claim_c7_truncated_frame_witness :
    parse_payload 1 [53, 58, 97, 98, 44] 0 4 = none :=
  claim_c7_truncated_frame 0 [53, 58, 97, 98, 44] 0 4 1 5 (by decide) (by decide)
    (by decide) (by decide) (by decide) (by decide)

/-- C8: on every successful decode of one frame, the returned
`this_end_pos` equals the index of the frame's type-tag byte plus one: the
tag byte sits at `pl_end + 1 = colon_pos + 1 + pl_size - 1 + 1` and
`this_end_pos = pl_start + pl_size + 1` is exactly one past it, the first
unconsumed index. -/
theorem claim_c8_next_offset_past_tag (f : Nat) (p : List Nat) (s e : Int) (v : Value)
    (nxt : Int) (h : parse_payload (f + 1) p s e = some (v, nxt)) :
    ∃ sz : Int, toIntQ (midQ p s (indexOfQ p 58 s - s)) = some sz ∧
      nxt = (indexOfQ p 58 s + 1 + sz - 1 + 1) + 1 := by
  obtain ⟨sz, h1, _, _, h4⟩ := parse_payload_some_header f p s e v nxt h
  exact ⟨sz, h1, by omega⟩

theorem claim_c8_next_offset_past_tag_witness :
    ∃ sz : Int, toIntQ (midQ [48, 58, 126] 0 (indexOfQ [48, 58, 126] 58 0 - 0)) = some sz ∧
      (3 : Int) = (indexOfQ [48, 58, 126] 58 0 + 1 + sz - 1 + 1) + 1 :=
  claim_c8_next_offset_past_tag 0 [48, 58, 126] 0 2 .invalid 3 rfl

/-- C9: while decoding a Map frame, if the sub-frame decoded at the current
offset (as a key) is not of the `QVariant::ByteArray` wire type — e.g. a
null, integer, boolean, list or nested map — the whole Map decode fails
(`"tns map keys are only allowed to be strings"`) and no partial map is
returned. -/
theorem claim_c9_nonstring_key_fails (f : Nat) (p : List Nat) (bound pos : Int)
    (m : List (List Nat × Value)) (k : Value) (e : Int)
    (hpos : pos < bound)
    (hk : parse_payload f p pos bound = some (k, e))
    (hnb : k.isBytes = false) :
    parse_map_loop (f + 1) p bound pos m = none := by
  rw [parse_map_loop_step f p bound pos m hpos, hk]
  cases k with
  | vbytes kb => simp [Value.isBytes] at hnb
  | invalid => rfl
  | vbool b => rfl
  | vint n => rfl
  | vfloat x => rfl
  | vlist x => rfl
  | vmap x => rfl

theorem claim_c9_nonstring_key_fails_witness :
    parse_map_loop 2 [48, 58, 126, 88] 3 0 [] = none :=
  claim_c9_nonstring_key_fails 1 [48, 58, 126, 88] 3 0 [] .invalid 3 (by decide) rfl rfl

/-! ## `QMap` ordering facts (for the map-encoding claim) -/

theorem qmapInsert_cons_lt (k k' : List Nat) (v v' : Value) (m : List (List Nat × Value))
    (h : k < k') : qmapInsert ((k', v') :: m) k v = (k, v) :: (k', v') :: m := by
  simp [qmapInsert, h]

theorem qmapInsert_cons_eq (k k' : List Nat) (v v' : Value) (m : List (List Nat × Value))
    (h : k = k') : qmapInsert ((k', v') :: m) k v = (k, v) :: m := by
  subst h
  simp [qmapInsert, lt_irrefl]

theorem qmapInsert_cons_gt (k k' : List Nat) (v v' : Value) (m : List (List Nat × Value))
    (h : k' < k) : qmapInsert ((k', v') :: m) k v = (k', v') :: qmapInsert m k v := by
  simp [qmapInsert, lt_asymm h, (ne_of_gt h : k ≠ k')]

theorem qmapInsert_mem (k : List Nat) (v : Value) :
    ∀ (m : List (List Nat × Value)) (x : List Nat × Value),
      x ∈ qmapInsert m k v → x = (k, v) ∨ x ∈ m := by
  intro m
  induction m with
  | nil =>
    intro x hx
    simp [qmapInsert] at hx
    exact Or.inl hx
  | cons kv rest ih =>
    obtain ⟨k', v'⟩ := kv
    intro x hx
    rcases lt_trichotomy k k' with h | h | h
    · rw [qmapInsert_cons_lt k k' v v' rest h] at hx
      rcases List.mem_cons.mp hx with hx | hx
      · exact Or.inl hx
      · exact Or.inr hx
    · rw [qmapInsert_cons_eq k k' v v' rest h] at hx
      rcases List.mem_cons.mp hx with hx | hx
      · exact Or.inl hx
      · exact Or.inr (List.mem_cons_of_mem _ hx)
    · rw [qmapInsert_cons_gt k k' v v' rest h] at hx
      rcases List.mem_cons.mp hx with hx | hx
      · rw [hx]
        exact Or.inr (List.mem_cons_self _ _)
      · rcases ih x hx with h2 | h2
        · exact Or.inl h2
        · exact Or.inr (List.mem_cons_of_mem _ h2)

theorem qmapInsert_pairwise (k : List Nat) (v : Value) :
    ∀ m : List (List Nat × Value),
      List.Pairwise (fun a b => a.1 < b.1) m →
      List.Pairwise (fun a b => a.1 < b.1) (qmapInsert m k v) := by
  intro m
  induction m with
  | nil =>
    intro _
    simp [qmapInsert]
  | cons kv rest ih =>
    obtain ⟨k', v'⟩ := kv
    intro hp
    rw [List.pairwise_cons] at hp
    obtain ⟨hhead, htail⟩ := hp
    rcases lt_trichotomy k k' with h | h | h
    · rw [qmapInsert_cons_lt k k' v v' rest h]
      rw [List.pairwise_cons]
      refine ⟨?_, List.pairwise_cons.mpr ⟨hhead, htail⟩⟩
      intro y hy
      rcases List.mem_cons.mp hy with hy | hy
      · rw [hy]
        exact h
      · exact lt_trans h (hhead y hy)
    · rw [qmapInsert_cons_eq k k' v v' rest h]
      rw [List.pairwise_cons]
      refine ⟨?_, htail⟩
      intro y hy
      rw [h]
      exact hhead y hy
    · rw [qmapInsert_cons_gt k k' v v' rest h]
      rw [List.pairwise_cons]
      refine ⟨?_, ih htail⟩
      intro y hy
      rcases qmapInsert_mem k v rest y hy with hy2 | hy2
      · rw [hy2]
        exact h
      · exact hhead y hy2

theorem qmapInsert_comm (k1 k2 : List Nat) (v1 v2 : Value) (hne : k1 ≠ k2) :
    ∀ m : List (List Nat × Value),
      qmapInsert (qmapInsert m k1 v1) k2 v2 = qmapInsert (qmapInsert m k2 v2) k1 v1 := by
  intro m
  induction m with
  | nil =>
    show qmapInsert [(k1, v1)] k2 v2 = qmapInsert [(k2, v2)] k1 v1
    rcases lt_trichotomy k1 k2 with h | h | h
    · rw [qmapInsert_cons_gt k2 k1 v2 v1 [] h, qmapInsert_cons_lt k1 k2 v1 v2 [] h]
      rfl
    · exact absurd h hne
    · rw [qmapInsert_cons_lt k2 k1 v2 v1 [] h, qmapInsert_cons_gt k1 k2 v1 v2 [] h]
      rfl
  | cons kv rest ih =>
    obtain ⟨k, v0⟩ := kv
    rcases lt_trichotomy k1 k with hA | hA | hA
    · rcases lt_trichotomy k2 k with hB | hB | hB
      · rcases lt_trichotomy k1 k2 with hC | hC | hC
        · rw [qmapInsert_cons_lt k1 k v1 v0 rest hA,
            qmapInsert_cons_gt k2 k1 v2 v1 ((k, v0) :: rest) hC,
            qmapInsert_cons_lt k2 k v2 v0 rest hB,
            qmapInsert_cons_lt k1 k2 v1 v2 ((k, v0) :: rest) hC]
        · exact absurd hC hne
        · rw [qmapInsert_cons_lt k1 k v1 v0 rest hA,
            qmapInsert_cons_lt k2 k1 v2 v1 ((k, v0) :: rest) hC,
            qmapInsert_cons_lt k2 k v2 v0 rest hB,
            qmapInsert_cons_gt k1 k2 v1 v2 ((k, v0) :: rest) hC,
            qmapInsert_cons_lt k1 k v1 v0 rest hA]
      · subst hB
        rw [qmapInsert_cons_lt k1 k2 v1 v0 rest hA,
          qmapInsert_cons_gt k2 k1 v2 v1 ((k2, v0) :: rest) hA,
          qmapInsert_cons_eq k2 k2 v2 v0 rest rfl,
          qmapInsert_cons_lt k1 k2 v1 v2 rest hA]
      · have hC : k1 < k2 := lt_trans hA hB
        rw [qmapInsert_cons_lt k1 k v1 v0 rest hA,
          qmapInsert_cons_gt k2 k1 v2 v1 ((k, v0) :: rest) hC,
          qmapInsert_cons_gt k2 k v2 v0 rest hB,
          qmapInsert_cons_lt k1 k v1 v0 (qmapInsert rest k2 v2) hA]
    · subst hA
      rcases lt_trichotomy k2 k1 with hB | hB | hB
      · rw [qmapInsert_cons_eq k1 k1 v1 v0 rest rfl,
          qmapInsert_cons_lt k2 k1 v2 v1 rest hB,
          qmapInsert_cons_lt k2 k1 v2 v0 rest hB,
          qmapInsert_cons_gt k1 k2 v1 v2 ((k1, v0) :: rest) hB,
          qmapInsert_cons_eq k1 k1 v1 v0 rest rfl]
      · exact absurd hB.symm hne
      · rw [qmapInsert_cons_eq k1 k1 v1 v0 rest rfl,
          qmapInsert_cons_gt k2 k1 v2 v1 rest hB,
          qmapInsert_cons_gt k2 k1 v2 v0 rest hB,
          qmapInsert_cons_eq k1 k1 v1 v0 (qmapInsert rest k2 v2) rfl]
    · rcases lt_trichotomy k2 k with hB | hB | hB
      · have hC : k2 < k1 := lt_trans hB hA
        rw [qmapInsert_cons_gt k1 k v1 v0 rest hA,
          qmapInsert_cons_lt k2 k v2 v0 (qmapInsert rest k1 v1) hB,
          qmapInsert_cons_lt k2 k v2 v0 rest hB,
          qmapInsert_cons_gt k1 k2 v1 v2 ((k, v0) :: rest) hC,
          qmapInsert_cons_gt k1 k v1 v0 rest hA]
      · subst hB
        rw [qmapInsert_cons_gt k1 k2 v1 v0 rest hA,
          qmapInsert_cons_eq k2 k2 v2 v0 (qmapInsert rest k1 v1) rfl,
          qmapInsert_cons_eq k2 k2 v2 v0 rest rfl,
          qmapInsert_cons_gt k1 k2 v1 v2 rest hA]
      · rw [qmapInsert_cons_gt k1 k v1 v0 rest hA,
          qmapInsert_cons_gt k2 k v2 v0 (qmapInsert rest k1 v1) hB,
          qmapInsert_cons_gt k2 k v2 v0 rest hB,
          qmapInsert_cons_gt k1 k v1 v0 (qmapInsert rest k2 v2) hA,
          ih]

theorem qmapOfList_pairwise_aux :
    ∀ (l : List (List Nat × Value)) (acc : List (List Nat × Value)),
      List.Pairwise (fun a b => a.1 < b.1) acc →
      List.Pairwise (fun a b => a.1 < b.1)
        (l.foldl (fun m kv => qmapInsert m kv.1 kv.2) acc)
  | [], _, h => h
  | kv :: rest, acc, h =>
    qmapOfList_pairwise_aux rest (qmapInsert acc kv.1 kv.2) (qmapInsert_pairwise kv.1 kv.2 acc h)

theorem qmapOfList_pairwise (l : List (List Nat × Value)) :
    List.Pairwise (fun a b => a.1 < b.1) (qmapOfList l) :=
  qmapOfList_pairwise_aux l [] (List.Pairwise.nil)

theorem qmapOfList_perm (l1 l2 : List (List Nat × Value)) (hp : l1.Perm l2)
    (hnd : (l1.map Prod.fst).Nodup) : qmapOfList l1 = qmapOfList l2 := by
  unfold qmapOfList
  refine hp.foldl_eq' ?_ []
  intro x hx y hy z
  by_cases hxy : x = y
  · subst hxy
    rfl
  · have hk : x.1 ≠ y.1 := fun h => hxy (List.inj_on_of_nodup_map hnd hx hy h)
    exact qmapInsert_comm x.1 y.1 x.2 y.2 hk z

/-- C10: `dump_map` iterates the `QMap` in its defined order, which Qt keeps
ascending in the keys, so encoding emits the key/value pair frames in
ascending sorted key order regardless of insertion order: two maps built by
inserting the same key/value pairs (distinct keys) in any two orders are the
same `QMap`, their entry lists are strictly ascending in the keys, and their
encodings are byte-identical. -/
theorem claim_c10_map_dump_sorted_deterministic (l1 l2 : List (List Nat × Value))
    (hperm : l1.Perm l2) (hnd : (l1.map Prod.fst).Nodup) :
    qmapOfList l1 = qmapOfList l2 ∧
    List.Pairwise (fun a b => a.1 < b.1) (qmapOfList l1) ∧
    dump (.vmap (qmapOfList l1)) = dump (.vmap (qmapOfList l2)) := by
  have he := qmapOfList_perm l1 l2 hperm hnd
  exact ⟨he, qmapOfList_pairwise l1, by rw [he]⟩

theorem claim_c10_map_dump_sorted_deterministic_witness :
    qmapOfList [([98], .vint 1), ([97], .vint 2)] =
        qmapOfList [([97], .vint 2), ([98], .vint 1)] ∧
    List.Pairwise (fun a b => a.1 < b.1)
        (qmapOfList [([98], .vint 1), ([97], .vint 2)]) ∧
    dump (.vmap (qmapOfList [([98], .vint 1), ([97], .vint 2)])) =
        dump (.vmap (qmapOfList [([97], .vint 2), ([98], .vint 1)])) :=
  claim_c10_map_dump_sorted_deterministic
    [([98], .vint 1), ([97], .vint 2)] [([97], .vint 2), ([98], .vint 1)]
    (List.Perm.swap ([97], Value.vint 2) ([98], Value.vint 1) [])
    (by decide)

/-! ## Wire-grammar validity (the spec's "one complete valid frame")

These definitions follow the spec's wire format (§6): `SIZE ':' DATA TAG`
with `SIZE` a run of 1–9 ASCII digits, `DATA` exactly `SIZE` bytes, `TAG`
one of the seven type tags, and the `DATA` of a List/Map frame itself a
concatenation of complete frames.  They are spec-side definitions used only
to state the "valid single frame" hypothesis of the trailing-bytes claim. -/

mutual
/-- Position one past a complete grammar-valid frame starting at `s`, if
the bytes from `s` form one (the fuel only bounds the nesting recursion). -/
def specFrameEnd : Nat → List Nat → Nat → Option Nat
  | 0, _, _ => none
  | sf + 1, buf, s =>
    let dl := ((buf.drop s).takeWhile isDigitByte).length
    if dl < 1 ∨ 9 < dl then none
    else if atNat buf (s + dl) ≠ 58 then none
    else
      let n := digitsVal ((buf.drop s).takeWhile isDigitByte)
      let tagPos := s + dl + 1 + n
      if ¬ (tagPos < buf.length) then none
      else if ¬ (isTagByte (atNat buf tagPos)) then none
      else if (atNat buf tagPos = 93 ∨ atNat buf tagPos = 125) ∧
              ¬ (specSeqValid sf buf (s + dl + 1) tagPos = true) then none
      else some (tagPos + 1)

/-- Whether the bytes in `[pos, stop)` are exactly a concatenation of
complete grammar-valid frames. -/
def specSeqValid : Nat → List Nat → Nat → Nat → Bool
  | 0, _, _, _ => false
  | sf + 1, buf, pos, stop =>
    if pos = stop then true
    else if stop < pos then false
    else
      match specFrameEnd sf buf pos with
      | none => false
      | some t => specSeqValid sf buf t stop
end

theorem atNat_oob : ∀ (l : List Nat) (n : Nat), l.length ≤ n → atNat l n = 0
  | [], _, _ => rfl
  | _ :: r, n + 1, h => atNat_oob r n (by simpa using Nat.le_of_succ_le_succ h)

theorem specSeqValid_le (sf : Nat) (buf : List Nat) (pos stop : Nat)
    (h : specSeqValid sf buf pos stop = true) : pos ≤ stop := by
  cases sf with
  | zero => simp [specSeqValid] at h
  | succ sf =>
    simp only [specSeqValid] at h
    split at h
    · omega
    split at h
    · simp at h
    · omega

theorem specSeqValid_cases (sf : Nat) (buf : List Nat) (pos stop : Nat)
    (h : specSeqValid (sf + 1) buf pos stop = true) :
    pos = stop ∨ (pos < stop ∧ ∃ t, specFrameEnd sf buf pos = some t ∧
      specSeqValid sf buf t stop = true) := by
  simp only [specSeqValid] at h
  split at h
  next he => exact Or.inl he
  next he =>
  split at h
  · simp at h
  next hgt =>
  rcases hF : specFrameEnd sf buf pos with _ | t
  · rw [hF] at h
    simp at h
  · rw [hF] at h
    simp only [] at h
    exact Or.inr ⟨by omega, t, rfl, h⟩

theorem specFrameEnd_inv (sf : Nat) (buf : List Nat) (s t : Nat)
    (h : specFrameEnd (sf + 1) buf s = some t) :
    1 ≤ ((buf.drop s).takeWhile isDigitByte).length ∧
    ((buf.drop s).takeWhile isDigitByte).length ≤ 9 ∧
    atNat buf (s + ((buf.drop s).takeWhile isDigitByte).length) = 58 ∧
    s + ((buf.drop s).takeWhile isDigitByte).length + 1 +
      digitsVal ((buf.drop s).takeWhile isDigitByte) < buf.length ∧
    isTagByte (atNat buf (s + ((buf.drop s).takeWhile isDigitByte).length + 1 +
      digitsVal ((buf.drop s).takeWhile isDigitByte))) = true ∧
    t = s + ((buf.drop s).takeWhile isDigitByte).length + 1 +
      digitsVal ((buf.drop s).takeWhile isDigitByte) + 1 ∧
    ((atNat buf (s + ((buf.drop s).takeWhile isDigitByte).length + 1 +
        digitsVal ((buf.drop s).takeWhile isDigitByte)) = 93 ∨
      atNat buf (s + ((buf.drop s).takeWhile isDigitByte).length + 1 +
        digitsVal ((buf.drop s).takeWhile isDigitByte)) = 125) →
      specSeqValid sf buf (s + ((buf.drop s).takeWhile isDigitByte).length + 1)
        (s + ((buf.drop s).takeWhile isDigitByte).length + 1 +
          digitsVal ((buf.drop s).takeWhile isDigitByte)) = true) := by
  simp only [specFrameEnd] at h
  split at h
  · simp at h
  next hdl =>
  split at h
  · simp at h
  next h58 =>
  split at h
  · simp at h
  next hlt =>
  split at h
  · simp at h
  next htag =>
  split at h
  · simp at h
  next hseq =>
  simp only [Option.some.injEq] at h
  refine ⟨by omega, by omega, by simpa using h58, by omega, ?_, h.symm, ?_⟩
  · simpa using htag
  · intro hcomp
    by_cases hs : specSeqValid sf buf
        (s + ((buf.drop s).takeWhile isDigitByte).length + 1)
        (s + ((buf.drop s).takeWhile isDigitByte).length + 1 +
          digitsVal ((buf.drop s).takeWhile isDigitByte)) = true
    · exact hs
    · exact absurd ⟨hcomp, hs⟩ hseq

/-- The decomposition of the buffer at a grammar-valid frame header: the
digit run, the colon found by `indexOf`, and the size prefix recovered by
`mid` + `toInt`. -/
theorem spec_header (buf : List Nat) (s dl : Nat) (ds : List Nat)
    (hds : (buf.drop s).takeWhile isDigitByte = ds)
    (hdl : dl = ds.length) (hdl1 : 1 ≤ dl) (hdl9 : dl ≤ 9)
    (h58 : atNat buf (s + dl) = 58) :
    s + dl < buf.length ∧
    indexOfQ buf 58 (s : Int) = ((s + dl : Nat) : Int) ∧
    toIntQ (midQ buf (s : Int) (((s + dl : Nat) : Int) - (s : Int))) =
      some ((digitsVal ds : Nat) : Int) := by
  have hdig : ∀ c ∈ ds, isDigitByte c = true := fun c hc =>
    takeWhile_sat (buf.drop s) c (hds ▸ hc)
  have hcol : s + dl < buf.length := by
    by_contra hge
    rw [atNat_oob buf (s + dl) (by omega)] at h58
    exact absurd h58 (by norm_num)
  have hdrop : buf.drop s = ds ++ buf.drop (s + dl) := by
    have h1 := List.takeWhile_append_dropWhile (p := isDigitByte) (l := buf.drop s)
    have h2 : (buf.drop s).dropWhile isDigitByte = buf.drop (s + dl) := by
      rw [dropWhile_eq_drop, hds, ← hdl, List.drop_drop]
    rw [← h1, hds, h2]
  have hdrop2 : buf.drop (s + dl) = 58 :: buf.drop (s + dl + 1) := by
    rw [drop_atNat buf (s + dl) hcol, h58]
  have hne58 : ∀ c ∈ ds, c ≠ 58 := by
    intro c hc
    have := hdig c hc
    simp [isDigitByte] at this
    omega
  have hidx : idxFrom (buf.drop s) 58 = some dl := by
    rw [hdrop, hdrop2, hdl]
    exact idxFrom_pre 58 ds _ hne58
  refine ⟨hcol, ?_, ?_⟩
  · simp only [indexOfQ]
    have hnn : ¬ ((s : Int) < 0) := by omega
    rw [if_neg hnn, show ((s : Int)).toNat = s from by omega, hidx]
    simp only []
    push_cast
    ring
  · have hmid : midQ buf (s : Int) (((s + dl : Nat) : Int) - (s : Int)) = ds := by
      rw [midQ_nonneg buf _ _ (by omega) (by push_cast; omega) (by push_cast; omega)]
      rw [show (((s + dl : Nat) : Int) - (s : Int)).toNat = dl from by omega,
        show ((s : Int)).toNat = s from by omega]
      rw [hdrop, hdl]
      exact List.take_left ds _
    rw [hmid]
    have hnemp : ds ≠ [] := by
      intro hh
      rw [hh] at hdl
      simp at hdl
      omega
    exact toIntQ_digits ds hnemp hdig (by omega)

/-! ## Per-tag reductions of `parse_payload` under known header facts -/

theorem parse_payload_tag126 (f : Nat) (p : List Nat) (s e c sz : Int)
    (hlen : ¬ p.length = 0) (hse : ¬(s > e ∨ (p.length : Int) - 1 < e))
    (hc : indexOfQ p 58 s = c) (hcv : ¬(c = -1 ∨ c > e))
    (hsz : toIntQ (midQ p s (c - s)) = some sz) (hpe : ¬(c + 1 + sz - 1 ≥ e))
    (htag : atQ p (c + 1 + sz - 1 + 1) = 126) :
    parse_payload (f + 1) p s e = some (.invalid, c + 1 + sz + 1) := by
  rw [parse_payload_reduce f p s e c sz hlen hse hc hcv hsz hpe, htag]

theorem parse_payload_tag44 (f : Nat) (p : List Nat) (s e c sz : Int)
    (hlen : ¬ p.length = 0) (hse : ¬(s > e ∨ (p.length : Int) - 1 < e))
    (hc : indexOfQ p 58 s = c) (hcv : ¬(c = -1 ∨ c > e))
    (hsz : toIntQ (midQ p s (c - s)) = some sz) (hpe : ¬(c + 1 + sz - 1 ≥ e))
    (htag : atQ p (c + 1 + sz - 1 + 1) = 44) :
    parse_payload (f + 1) p s e = some (.vbytes (midQ p (c + 1) sz), c + 1 + sz + 1) := by
  rw [parse_payload_reduce f p s e c sz hlen hse hc hcv hsz hpe, htag]

theorem parse_payload_tag33 (f : Nat) (p : List Nat) (s e c sz : Int)
    (hlen : ¬ p.length = 0) (hse : ¬(s > e ∨ (p.length : Int) - 1 < e))
    (hc : indexOfQ p 58 s = c) (hcv : ¬(c = -1 ∨ c > e))
    (hsz : toIntQ (midQ p s (c - s)) = some sz) (hpe : ¬(c + 1 + sz - 1 ≥ e))
    (htag : atQ p (c + 1 + sz - 1 + 1) = 33) :
    parse_payload (f + 1) p s e =
      some (.vbool (midQ p (c + 1) sz = trueBytes), c + 1 + sz + 1) := by
  rw [parse_payload_reduce f p s e c sz hlen hse hc hcv hsz hpe, htag]

theorem parse_payload_tag35 (f : Nat) (p : List Nat) (s e c sz : Int)
    (hlen : ¬ p.length = 0) (hse : ¬(s > e ∨ (p.length : Int) - 1 < e))
    (hc : indexOfQ p 58 s = c) (hcv : ¬(c = -1 ∨ c > e))
    (hsz : toIntQ (midQ p s (c - s)) = some sz) (hpe : ¬(c + 1 + sz - 1 ≥ e))
    (htag : atQ p (c + 1 + sz - 1 + 1) = 35) :
    parse_payload (f + 1) p s e =
      (match toIntQ (midQ p (c + 1) sz) with
       | none => none
       | some n => some (.vint n, c + 1 + sz + 1)) := by
  rw [parse_payload_reduce f p s e c sz hlen hse hc hcv hsz hpe, htag]

theorem parse_payload_tag94 (f : Nat) (p : List Nat) (s e c sz : Int)
    (hlen : ¬ p.length = 0) (hse : ¬(s > e ∨ (p.length : Int) - 1 < e))
    (hc : indexOfQ p 58 s = c) (hcv : ¬(c = -1 ∨ c > e))
    (hsz : toIntQ (midQ p s (c - s)) = some sz) (hpe : ¬(c + 1 + sz - 1 ≥ e))
    (htag : atQ p (c + 1 + sz - 1 + 1) = 94) :
    parse_payload (f + 1) p s e =
      (if toDoubleOkQ (midQ p (c + 1) sz)
       then some (.vfloat (midQ p (c + 1) sz), c + 1 + sz + 1) else none) := by
  rw [parse_payload_reduce f p s e c sz hlen hse hc hcv hsz hpe, htag]

theorem parse_payload_tag125 (f : Nat) (p : List Nat) (s e c sz : Int)
    (hlen : ¬ p.length = 0) (hse : ¬(s > e ∨ (p.length : Int) - 1 < e))
    (hc : indexOfQ p 58 s = c) (hcv : ¬(c = -1 ∨ c > e))
    (hsz : toIntQ (midQ p s (c - s)) = some sz) (hpe : ¬(c + 1 + sz - 1 ≥ e))
    (htag : atQ p (c + 1 + sz - 1 + 1) = 125) :
    parse_payload (f + 1) p s e =
      (match parse_map f p (c + 1) sz with
       | none => none
       | some m => some (.vmap m, c + 1 + sz + 1)) := by
  rw [parse_payload_reduce f p s e c sz hlen hse hc hcv hsz hpe, htag]

theorem parse_payload_tag93 (f : Nat) (p : List Nat) (s e c sz : Int)
    (hlen : ¬ p.length = 0) (hse : ¬(s > e ∨ (p.length : Int) - 1 < e))
    (hc : indexOfQ p 58 s = c) (hcv : ¬(c = -1 ∨ c > e))
    (hsz : toIntQ (midQ p s (c - s)) = some sz) (hpe : ¬(c + 1 + sz - 1 ≥ e))
    (htag : atQ p (c + 1 + sz - 1 + 1) = 93) :
    parse_payload (f + 1) p s e =
      (match parse_list f p (c + 1) sz with
       | none => none
       | some vs => some (.vlist vs, c + 1 + sz + 1)) := by
  rw [parse_payload_reduce f p s e c sz hlen hse hc hcv hsz hpe, htag]

/-- Appending bytes after the end of a grammar-valid frame does not change
what the decoder computes: for a valid frame of `buf` at `s` ending at `t`,
`parse_payload` run on `buf ++ sfx` with any end bound covering the frame
returns exactly what it returns on `buf` (success, failure and value alike),
and a successful parse ends exactly at `t`.  Stated simultaneously for the
two composite-payload loops. -/
theorem spec_parse_extend : ∀ fp : Nat,
    (∀ sf (buf sfx : List Nat) (s t : Nat) (B B2 : Int),
      specFrameEnd sf buf s = some t →
      (t : Int) - 1 ≤ B → B ≤ (buf.length : Int) - 1 →
      (t : Int) - 1 ≤ B2 → B2 ≤ ((buf.length : Int) + (sfx.length : Int)) - 1 →
      parse_payload fp (buf ++ sfx) (s : Int) B2 = parse_payload fp buf (s : Int) B ∧
      (∀ v e, parse_payload fp buf (s : Int) B = some (v, e) → e = (t : Int))) ∧
    (∀ sf (buf sfx : List Nat) (pos stop : Nat),
      specSeqValid sf buf pos stop = true →
      stop ≤ buf.length →
      parse_list_loop fp (buf ++ sfx) ((stop : Int) - 1) (pos : Int) =
        parse_list_loop fp buf ((stop : Int) - 1) (pos : Int)) ∧
    (∀ sf (buf sfx : List Nat) (pos stop : Nat) (m : List (List Nat × Value)),
      specSeqValid sf buf pos stop = true →
      stop ≤ buf.length →
      parse_map_loop fp (buf ++ sfx) ((stop : Int) - 1) (pos : Int) m =
        parse_map_loop fp buf ((stop : Int) - 1) (pos : Int) m) := by
  intro fp
  induction fp using Nat.strong_induction_on with
  | _ fp IH =>
  rcases fp with _ | fp
  · refine ⟨?_, ?_, ?_⟩
    · intro sf buf sfx s t B B2 _ _ _ _ _
      exact ⟨rfl, fun v e he => by simp [parse_payload] at he⟩
    · intro sf buf sfx pos stop _ _
      rfl
    · intro sf buf sfx pos stop m _ _
      rfl
  refine ⟨?_, ?_, ?_⟩
  · -- one frame
    intro sf buf sfx s t B B2 hF hB1 hBl hB2 hB2l
    rcases sf with _ | sf
    · simp [specFrameEnd] at hF
    obtain ⟨hdl1, hdl9, h58, hlt, htag, ht, hseq⟩ := specFrameEnd_inv sf buf s t hF
    generalize hds : (buf.drop s).takeWhile isDigitByte = ds at hdl1 hdl9 h58 hlt htag ht hseq
    obtain ⟨hcol, hidx, htoi⟩ := spec_header buf s ds.length ds hds rfl hdl1 hdl9 h58
    have hlenE : (buf ++ sfx).length = buf.length + sfx.length := by simp
    have hstop2 : ((buf.drop s).takeWhile isDigitByte).length < (buf.drop s).length := by
      rw [hds]
      simp only [List.length_drop]
      omega
    have hdsE : ((buf ++ sfx).drop s).takeWhile isDigitByte = ds := by
      rw [List.drop_append_of_le_length (by omega : s ≤ buf.length),
        takeWhile_append_stop (buf.drop s) sfx hstop2, hds]
    have h58E : atNat (buf ++ sfx) (s + ds.length) = 58 := by
      rw [atNat_append buf sfx _ hcol]
      exact h58
    obtain ⟨hcolE, hidxE, htoiE⟩ := spec_header (buf ++ sfx) s ds.length ds hdsE rfl hdl1 hdl9 h58E
    have c1 : ¬ buf.length = 0 := by omega
    have c2 : ¬((s : Int) > B ∨ (buf.length : Int) - 1 < B) := by omega
    have c3 : ¬(((s + ds.length : Nat) : Int) = -1 ∨ ((s + ds.length : Nat) : Int) > B) := by omega
    have c4 : ¬(((s + ds.length : Nat) : Int) + 1 + ((digitsVal ds : Nat) : Int) - 1 ≥ B) := by
      omega
    have c1E : ¬ (buf ++ sfx).length = 0 := by omega
    have c2E : ¬((s : Int) > B2 ∨ ((buf ++ sfx).length : Int) - 1 < B2) := by
      rw [hlenE]
      omega
    have c3E : ¬(((s + ds.length : Nat) : Int) = -1 ∨ ((s + ds.length : Nat) : Int) > B2) := by
      omega
    have c4E : ¬(((s + ds.length : Nat) : Int) + 1 + ((digitsVal ds : Nat) : Int) - 1 ≥ B2) := by
      omega
    have hend : ∀ v e, parse_payload (fp + 1) buf (s : Int) B = some (v, e) → e = (t : Int) := by
      intro v e he
      obtain ⟨sz', hsz', _, _, hnxt⟩ := parse_payload_some_header fp buf (s : Int) B v e he
      rw [hidx] at hsz' hnxt
      rw [htoi] at hsz'
      simp only [Option.some.injEq] at hsz'
      omega
    refine ⟨?_, hend⟩
    have hXeq : ((s + ds.length : Nat) : Int) + 1 + ((digitsVal ds : Nat) : Int) - 1 + 1 =
        ((s + ds.length + 1 + digitsVal ds : Nat) : Int) := by
      push_cast
      ring
    have htagB : atQ buf (((s + ds.length : Nat) : Int) + 1 + ((digitsVal ds : Nat) : Int) - 1 + 1) =
        atNat buf (s + ds.length + 1 + digitsVal ds) := by
      rw [hXeq]
      exact atQ_nat buf _ hlt
    have htagE : atQ (buf ++ sfx)
        (((s + ds.length : Nat) : Int) + 1 + ((digitsVal ds : Nat) : Int) - 1 + 1) =
        atNat buf (s + ds.length + 1 + digitsVal ds) := by
      rw [hXeq]
      rw [atQ_nat (buf ++ sfx) _ (by rw [hlenE]; omega)]
      exact atNat_append buf sfx _ hlt
    have hmid : midQ (buf ++ sfx) (((s + ds.length : Nat) : Int) + 1) ((digitsVal ds : Nat) : Int) =
        midQ buf (((s + ds.length : Nat) : Int) + 1) ((digitsVal ds : Nat) : Int) :=
      midQ_append buf sfx _ _ (by omega) (by omega) (by push_cast; omega)
    rcases isTagByte_cases _ htag with h | h | h | h | h | h | h
    · -- '!' 33
      rw [parse_payload_tag33 fp buf (s : Int) B _ _ c1 c2 hidx c3 htoi c4 (htagB.trans h),
        parse_payload_tag33 fp (buf ++ sfx) (s : Int) B2 _ _ c1E c2E hidxE c3E htoiE c4E
          (htagE.trans h), hmid]
    · -- '#' 35
      rw [parse_payload_tag35 fp buf (s : Int) B _ _ c1 c2 hidx c3 htoi c4 (htagB.trans h),
        parse_payload_tag35 fp (buf ++ sfx) (s : Int) B2 _ _ c1E c2E hidxE c3E htoiE c4E
          (htagE.trans h), hmid]
    · -- ',' 44
      rw [parse_payload_tag44 fp buf (s : Int) B _ _ c1 c2 hidx c3 htoi c4 (htagB.trans h),
        parse_payload_tag44 fp (buf ++ sfx) (s : Int) B2 _ _ c1E c2E hidxE c3E htoiE c4E
          (htagE.trans h), hmid]
    · -- ']' 93
      rw [parse_payload_tag93 fp buf (s : Int) B _ _ c1 c2 hidx c3 htoi c4 (htagB.trans h),
        parse_payload_tag93 fp (buf ++ sfx) (s : Int) B2 _ _ c1E c2E hidxE c3E htoiE c4E
          (htagE.trans h)]
      have hpl : parse_list fp (buf ++ sfx) (((s + ds.length : Nat) : Int) + 1)
          ((digitsVal ds : Nat) : Int) =
          parse_list fp buf (((s + ds.length : Nat) : Int) + 1) ((digitsVal ds : Nat) : Int) := by
        rcases Nat.eq_zero_or_pos fp with hf0 | hfpos
        · subst hf0
          rfl
        · obtain ⟨g, rfl⟩ : ∃ g, fp = g + 1 := ⟨fp - 1, by omega⟩
          simp only [parse_list]
          by_cases hz : ((digitsVal ds : Nat) : Int) = 0
          · rw [if_pos hz, if_pos hz]
          · rw [if_neg hz, if_neg hz]
            have hseqv := hseq (Or.inl h)
            have hloop := (IH g (by omega)).2.1 sf buf sfx (s + ds.length + 1)
              (s + ds.length + 1 + digitsVal ds) hseqv (by omega)
            have hbv : (((s + ds.length : Nat) : Int) + 1) + ((digitsVal ds : Nat) : Int) - 1 =
                ((s + ds.length + 1 + digitsVal ds : Nat) : Int) - 1 := by
              push_cast
              ring
            have hpv : ((s + ds.length : Nat) : Int) + 1 = ((s + ds.length + 1 : Nat) : Int) := by
              push_cast
              ring
            rw [hbv, hpv, hloop]
      rw [hpl]
    · -- '^' 94
      rw [parse_payload_tag94 fp buf (s : Int) B _ _ c1 c2 hidx c3 htoi c4 (htagB.trans h),
        parse_payload_tag94 fp (buf ++ sfx) (s : Int) B2 _ _ c1E c2E hidxE c3E htoiE c4E
          (htagE.trans h), hmid]
    · -- '}' 125
      rw [parse_payload_tag125 fp buf (s : Int) B _ _ c1 c2 hidx c3 htoi c4 (htagB.trans h),
        parse_payload_tag125 fp (buf ++ sfx) (s : Int) B2 _ _ c1E c2E hidxE c3E htoiE c4E
          (htagE.trans h)]
      have hpm : parse_map fp (buf ++ sfx) (((s + ds.length : Nat) : Int) + 1)
          ((digitsVal ds : Nat) : Int) =
          parse_map fp buf (((s + ds.length : Nat) : Int) + 1) ((digitsVal ds : Nat) : Int) := by
        rcases Nat.eq_zero_or_pos fp with hf0 | hfpos
        · subst hf0
          rfl
        · obtain ⟨g, rfl⟩ : ∃ g, fp = g + 1 := ⟨fp - 1, by omega⟩
          simp only [parse_map]
          by_cases hz : ((digitsVal ds : Nat) : Int) = 0
          · rw [if_pos hz, if_pos hz]
          · rw [if_neg hz, if_neg hz]
            have hseqv := hseq (Or.inr h)
            have hloop := (IH g (by omega)).2.2 sf buf sfx (s + ds.length + 1)
              (s + ds.length + 1 + digitsVal ds) [] hseqv (by omega)
            have hbv : (((s + ds.length : Nat) : Int) + 1) + ((digitsVal ds : Nat) : Int) - 1 =
                ((s + ds.length + 1 + digitsVal ds : Nat) : Int) - 1 := by
              push_cast
              ring
            have hpv : ((s + ds.length : Nat) : Int) + 1 = ((s + ds.length + 1 : Nat) : Int) := by
              push_cast
              ring
            rw [hbv, hpv, hloop]
      rw [hpm]
    · -- '~' 126
      rw [parse_payload_tag126 fp buf (s : Int) B _ _ c1 c2 hidx c3 htoi c4 (htagB.trans h),
        parse_payload_tag126 fp (buf ++ sfx) (s : Int) B2 _ _ c1E c2E hidxE c3E htoiE c4E
          (htagE.trans h)]
  · -- list loop
    intro sf buf sfx pos stop hsv hstop
    by_cases hb : (pos : Int) < (stop : Int) - 1
    · rcases sf with _ | sf
      · simp [specSeqValid] at hsv
      rcases specSeqValid_cases sf buf pos stop hsv with heq | ⟨hlt2, t, hF, hcont⟩
      · omega
      have htle : t ≤ stop := specSeqValid_le sf buf t stop hcont
      obtain ⟨hPeq, hPend⟩ := (IH fp (by omega)).1 sf buf sfx pos t ((stop : Int) - 1)
        ((stop : Int) - 1) hF (by omega) (by omega) (by omega) (by omega)
      rw [parse_list_loop_step fp (buf ++ sfx) _ _ hb, parse_list_loop_step fp buf _ _ hb, hPeq]
      rcases hres : parse_payload fp buf (pos : Int) ((stop : Int) - 1) with _ | ve
      · rfl
      obtain ⟨v, e⟩ := ve
      have he : e = (t : Int) := hPend v e hres
      subst he
      simp only []
      rw [(IH fp (by omega)).2.1 sf buf sfx t stop hcont hstop]
    · rw [parse_list_loop_exit fp (buf ++ sfx) _ _ hb, parse_list_loop_exit fp buf _ _ hb]
  · -- map loop
    intro sf buf sfx pos stop m hsv hstop
    by_cases hb : (pos : Int) < (stop : Int) - 1
    · rcases sf with _ | sf
      · simp [specSeqValid] at hsv
      rcases specSeqValid_cases sf buf pos stop hsv with heq | ⟨hlt2, t, hF, hcont⟩
      · omega
      have htle : t ≤ stop := specSeqValid_le sf buf t stop hcont
      obtain ⟨hPeq, hPend⟩ := (IH fp (by omega)).1 sf buf sfx pos t ((stop : Int) - 1)
        ((stop : Int) - 1) hF (by omega) (by omega) (by omega) (by omega)
      rw [parse_map_loop_step fp (buf ++ sfx) _ _ m hb, parse_map_loop_step fp buf _ _ m hb, hPeq]
      rcases hres : parse_payload fp buf (pos : Int) ((stop : Int) - 1) with _ | ke
      · rfl
      obtain ⟨k, e⟩ := ke
      have he : e = (t : Int) := hPend k e hres
      subst he
      simp only []
      cases k with
      | vbytes kb =>
        rcases sf with _ | sf2
        · simp [specSeqValid] at hcont
        rcases specSeqValid_cases sf2 buf t stop hcont with heq2 | ⟨hlt3, t2, hF2, hcont2⟩
        · subst heq2
          rw [parse_payload_start_gt fp (buf ++ sfx) (t : Int) ((t : Int) - 1) (by omega),
            parse_payload_start_gt fp buf (t : Int) ((t : Int) - 1) (by omega)]
        · have ht2le : t2 ≤ stop := specSeqValid_le sf2 buf t2 stop hcont2
          obtain ⟨hPeq2, hPend2⟩ := (IH fp (by omega)).1 sf2 buf sfx t t2 ((stop : Int) - 1)
            ((stop : Int) - 1) hF2 (by omega) (by omega) (by omega) (by omega)
          rw [hPeq2]
          rcases hres2 : parse_payload fp buf (t : Int) ((stop : Int) - 1) with _ | ve2
          · rfl
          obtain ⟨v, e2⟩ := ve2
          have he2 : e2 = (t2 : Int) := hPend2 v e2 hres2
          subst he2
          simp only []
          exact (IH fp (by omega)).2.2 sf2 buf sfx t2 stop (qmapInsert m kb v) hcont2 hstop
      | invalid => rfl
      | vbool b => rfl
      | vint n => rfl
      | vfloat x => rfl
      | vlist x => rfl
      | vmap x => rfl
    · rw [parse_map_loop_exit fp (buf ++ sfx) _ _ m hb, parse_map_loop_exit fp buf _ _ m hb]

theorem specFrameEnd_bounds (sf : Nat) (buf : List Nat) (s t : Nat)
    (h : specFrameEnd sf buf s = some t) : s < t ∧ t ≤ buf.length := by
  rcases sf with _ | sf
  · simp [specFrameEnd] at h
  obtain ⟨_, _, _, hlt, _, ht, _⟩ := specFrameEnd_inv sf buf s t h
  omega

/-- C6: for every buffer `buf` that is one complete grammar-valid frame
(`specFrameEnd` spans exactly the whole buffer) and decodes successfully,
appending any suffix leaves decoding successful with exactly the same value:
`QTNetString::parse` on `buf ++ sfx` returns what it returns on `buf`, the
suffix is never consumed. -/
theorem claim_c6_trailing_bytes_ignored (sf : Nat) (buf sfx : List Nat) (v : Value)
    (hvalid : specFrameEnd sf buf 0 = some buf.length)
    (hok : parse buf = some v) :
    parse (buf ++ sfx) = some v := by
  obtain ⟨hpos, _⟩ := specFrameEnd_bounds sf buf 0 buf.length hvalid
  have hne : buf.length ≠ 0 := by omega
  have hneE : (buf ++ sfx).length ≠ 0 := by
    simp only [List.length_append]
    omega
  simp only [parse, if_pos hne] at hok
  rcases Option.map_eq_some'.mp hok with ⟨⟨v', e⟩, hpp, hv⟩
  have hppE : parse_payload (2 * (buf ++ sfx).length + 2) buf 0 ((buf.length : Int) - 1) =
      some (v', e) := by
    have h0 : ((0 : Nat) : Int) = (0 : Int) := rfl
    exact parse_payload_mono (2 * buf.length + 2) (2 * (buf ++ sfx).length + 2)
      (by simp only [List.length_append]; omega) buf 0 ((buf.length : Int) - 1) (v', e) hpp
  obtain ⟨hEq, _⟩ := (spec_parse_extend (2 * (buf ++ sfx).length + 2)).1 sf buf sfx 0 buf.length
    ((buf.length : Int) - 1) (((buf ++ sfx).length : Int) - 1) hvalid (by omega) (by omega)
    (by simp only [List.length_append]; push_cast; omega)
    (by simp only [List.length_append]; push_cast; omega)
  simp only [parse, if_pos hneE]
  have h0c : ((0 : Nat) : Int) = (0 : Int) := rfl
  rw [h0c] at hEq
  rw [hEq, hppE]
  simpa using hv

theorem claim_c6_trailing_bytes_ignored_witness :
    parse ([48, 58, 126] ++ [88]) = some .invalid :=
  claim_c6_trailing_bytes_ignored 2 [48, 58, 126] [88] .invalid rfl rfl

end QTN
